import Mathlib

/-!
Uniswap V2 quote calculator (`uinv2.go`): embedding and verified properties

The Go program reads pool reserves and token metadata over RPC, converts a
decimal input amount to raw units, applies the constant-product formula with
a 997/1000 fee in `math/big` integers, and prints the result.

`*big.Int` values are embedded as `Int` (unbounded, signed) or, where the
source only produces non-negative values, as `Nat`; byte slices as lists of
`Fin 256`; run-time panics and returned errors as an explicit `Outcome.fail`
result.
-/

namespace Uinv2

/-- Run-time failures the embedded code can end in. -/
inductive Failure where
  | divisionByZero
  | sliceOutOfRange
  | error (msg : String)
  deriving DecidableEq, Repr

/-- Result of running a fragment: a value, or the failure that stopped it. -/
inductive Outcome (α : Type) where
  | ok (v : α)
  | fail (f : Failure)
  deriving DecidableEq, Repr

/-! ## Quote formula (`main`, lines 163-188) -/

/-- `fee := big.NewInt(997)`. -/
def fee : Int := 997

/-- `feeBase := big.NewInt(1000)`. -/
def feeBase : Int := 1000

/-- `new(big.Int).Div(n, d)`: Euclidean division; a zero divisor is a
division-by-zero run-time panic. -/
def bigDiv (n d : Int) : Outcome Int :=
  if d = 0 then Outcome.fail Failure.divisionByZero else Outcome.ok (Int.ediv n d)

/-- `numerator := new(big.Int).Mul(y, new(big.Int).Mul(fee, input_amount_raw))`. -/
def numerator (y input_amount_raw : Int) : Int :=
  y * (fee * input_amount_raw)

/-- `denominator := new(big.Int).Add(new(big.Int).Mul(x, feeBase),
new(big.Int).Mul(fee, input_amount_raw))`. -/
def denominator (x input_amount_raw : Int) : Int :=
  x * feeBase + fee * input_amount_raw

/-- `output_amount = new(big.Int).Div(numerator, denominator)` with `x` the
input-side reserve and `y` the output-side reserve. -/
def output_amount (x y input_amount_raw : Int) : Outcome Int :=
  bigDiv (numerator y input_amount_raw) (denominator x input_amount_raw)

/-! ## Byte slices -/

/-- One byte of a Go `[]byte`. -/
abbrev Byte := Fin 256

/-- `new(big.Int).SetBytes(b)`: the bytes read as a big-endian unsigned integer. -/
def SetBytes (b : List Byte) : Nat :=
  b.foldl (fun acc x => acc * 256 + x.val) 0

/-- Go slice expression `s[lo:hi]`: the run-time check is `lo ≤ hi ≤ cap(s)`;
the embedding checks against `len(s)`, which is what every guard in this
program establishes before slicing. -/
def goSlice (s : List Byte) (lo hi : Nat) : Outcome (List Byte) :=
  if lo ≤ hi ∧ hi ≤ s.length then Outcome.ok ((s.drop lo).take (hi - lo))
  else Outcome.fail Failure.sliceOutOfRange

/-- `binary.BigEndian.Uint32(b)`: bounds check on `b[3]`, then
`uint32(b[3]) | uint32(b[2])<<8 | uint32(b[1])<<16 | uint32(b[0])<<24`. -/
def BigEndianUint32 (b : List Byte) : Outcome Nat :=
  match b with
  | b0 :: b1 :: b2 :: b3 :: _ =>
      Outcome.ok ((b3.val ||| (b2.val <<< 8) ||| (b1.val <<< 16) ||| (b0.val <<< 24)) % 2 ^ 32)
  | _ => Outcome.fail Failure.sliceOutOfRange

/-! ## `parseReservesFromBytes` (lines 284-305) -/

/-- `type PoolReserves struct`: result of the `getReserves` call. -/
structure PoolReserves where
  _reserve0 : Int
  _reserve1 : Int
  _blockTimestampLast : Nat
  deriving DecidableEq, Repr

/-- `func parseReservesFromBytes(data []byte) (*PoolReserves, error)`. -/
def parseReservesFromBytes (data : List Byte) : Outcome PoolReserves :=
  if data.length < 96 then
    Outcome.fail (Failure.error "insufficient data length")
  else
    let reserve0 : Int := SetBytes ((data.drop 0).take 32)
    let reserve1 : Int := SetBytes ((data.drop 32).take 32)
    let timestampBytes := (data.drop 64).take 32
    match BigEndianUint32 timestampBytes with
    | Outcome.ok timestamp =>
        Outcome.ok { _reserve0 := reserve0, _reserve1 := reserve1,
                     _blockTimestampLast := timestamp }
    | Outcome.fail f => Outcome.fail f

/-! ## Manual symbol decoding in `getTokenSymbol` (lines 437-457) -/

/-- `(*big.Int).Uint64()`: the low 64 bits of a non-negative integer. -/
def Uint64 (n : Nat) : Nat := n % 2 ^ 64

/-- Addition of two `uint64` values, wrapping modulo 2^64. -/
def addUint64 (a b : Nat) : Nat := (a + b) % 2 ^ 64

/-- The `if err != nil { ... }` branch of `getTokenSymbol`, entered with
`symbol == ""` after `UnpackIntoInterface` has failed on `result`. The symbol
is kept as its bytes. -/
def symbolFallback (result : List Byte) : Outcome (List Byte) :=
  let decoded : Outcome (List Byte) :=
    if result.length ≥ 96 then
      let length := Uint64 (SetBytes ((result.drop 32).take 32))
      if length > 0 ∧ result.length ≥ addUint64 64 length then
        goSlice result 64 (addUint64 64 length)
      else Outcome.ok []
    else Outcome.ok []
  match decoded with
  | Outcome.ok symbol =>
      if symbol = [] then Outcome.fail (Failure.error "failed to unpack symbol")
      else Outcome.ok symbol
  | Outcome.fail f => Outcome.fail f

/-- The part of `getTokenSymbol` after the contract call: ABI unpacking
(`parsed_abi.UnpackIntoInterface`, go-ethereum, a parameter here) and the
manual fallback when it fails. -/
def getTokenSymbol (unpack : List Byte → Option (List Byte)) (result : List Byte) :
    Outcome (List Byte) :=
  match unpack result with
  | some symbol => Outcome.ok symbol
  | none => symbolFallback result

/-- A 32-byte big-endian word holding `n`. -/
def word32 (n : Nat) : List Byte :=
  (List.range 32).map (fun i => (Fin.ofNat (n / 256 ^ (31 - i)) : Byte))

/-- A `getReserves` response encoding reserves 1000 and 2000 and the
timestamp 0x65432101 as three ABI words. -/
def reservesResponse : List Byte := word32 1000 ++ word32 2000 ++ word32 0x65432101

/-- A `symbol()` response with offset word 32, length word 2^64 - 1 and one
further word of data. -/
def symbolResponse : List Byte := word32 32 ++ word32 (2 ^ 64 - 1) ++ word32 0

/-! ## Reserve ordering (`main`, lines 168-180) -/

/-! A Go `rune` is kept as its code point (a `Nat`), a string as the list of
its runes. -/

/-- `common.Address`: a 20-byte array. -/
structure Address where
  bytes : List Byte
  size : bytes.length = 20

/-- The table `"0123456789abcdef"` of `encoding/hex`, as code points. -/
def hextable : List Nat :=
  [48, 49, 50, 51, 52, 53, 54, 55, 56, 57, 97, 98, 99, 100, 101, 102]

/-- `hex.Encode`: two table look-ups per byte, high nibble first. -/
def hexEncode : List Byte → List Nat
  | [] => []
  | v :: rest => hextable.getD (v.val >>> 4) 0 :: hextable.getD (v.val &&& 0x0f) 0 :: hexEncode rest

/-- `(a Address).hex()`: `"0x"` followed by the lower-case hex digits. -/
def Address.hex (a : Address) : List Nat :=
  48 :: 120 :: hexEncode a.bytes

/-- The loop of `checksumHex` from position `i` on: a digit above `'9'` is
upper-cased (`buf[i] -= 32`) when the matching nibble of `hash` exceeds 7. -/
def checksumLoop (hash : List Byte) : Nat → List Nat → List Nat
  | _, [] => []
  | i, c :: cs =>
      let hashByte := (hash.getD ((i - 2) / 2) 0).val
      let nibble := if i % 2 = 0 then hashByte >>> 4 else hashByte &&& 0xf
      (if c > 57 ∧ nibble > 7 then c - 32 else c) :: checksumLoop hash (i + 1) cs

/-- `(a Address).Hex()`: the EIP-55 mixed-case form. The hash function
(Keccak-256 of the 40 lower-case digits, from `golang.org/x/crypto/sha3`) is a
parameter. -/
def Address.Hex (keccak256 : List Nat → List Byte) (a : Address) : List Nat :=
  48 :: 120 :: checksumLoop (keccak256 (hexEncode a.bytes)) 2 (hexEncode a.bytes)

/-- The loop `for r != sr && r < tr { r = unicode.SimpleFold(r) }` of
`strings.EqualFold`, with `unicode.SimpleFold` a parameter; `none` when the
fuel runs out before the loop condition fails. -/
def foldLoop (SimpleFold : Nat → Nat) (sr tr : Nat) : Nat → Nat → Option Nat
  | 0, _ => none
  | fuel + 1, r =>
      if r ≠ sr ∧ r < tr then foldLoop SimpleFold sr tr fuel (SimpleFold r) else some r

/-- One iteration of `strings.EqualFold` on the runes `s` (from the first
string) and `t` (from the second): whether the pair matches. -/
def foldStep (SimpleFold : Nat → Nat) (fuel : Nat) (s t : Nat) : Option Bool :=
  if t = s then some true
  else
    let sr := if t < s then t else s
    let tr := if t < s then s else t
    if tr < 0x80 then
      some (decide (65 ≤ sr ∧ sr ≤ 90 ∧ tr = sr + 97 - 65))
    else
      match foldLoop SimpleFold sr tr fuel (SimpleFold sr) with
      | some r => some (decide (r = tr))
      | none => none

/-- `strings.EqualFold(s, t)` on rune lists. -/
def EqualFold (SimpleFold : Nat → Nat) (fuel : Nat) : List Nat → List Nat → Option Bool
  | [], [] => some true
  | [], _ :: _ => some false
  | _ :: _, [] => some false
  | s :: ss, t :: ts =>
      match foldStep SimpleFold fuel s t with
      | some true => EqualFold SimpleFold fuel ss ts
      | some false => some false
      | none => none

/-- The `if strings.EqualFold(token0.Hex(), input_token_address)` block of
`main`: the pair `(x, y)` of input-side and output-side reserve. -/
def orderReserves (SimpleFold : Nat → Nat) (keccak256 : List Nat → List Byte) (fuel : Nat)
    (token0 : Address) (input_token_address : List Nat) (reserves : PoolReserves) :
    Option (Int × Int) :=
  match EqualFold SimpleFold fuel (token0.Hex keccak256) input_token_address with
  | some true => some (reserves._reserve0, reserves._reserve1)
  | some false => some (reserves._reserve1, reserves._reserve0)
  | none => none

/-- ASCII lower-casing of one rune. -/
def asciiLower (r : Nat) : Nat := if 65 ≤ r ∧ r ≤ 90 then r + 32 else r

/-- ASCII case swap of one rune: what `unicode.SimpleFold` does on the ASCII
letters other than `K`, `k`, `S` and `s`, and the identity elsewhere. -/
def swapCase (r : Nat) : Nat :=
  if 65 ≤ r ∧ r ≤ 90 then r + 32 else if 97 ≤ r ∧ r ≤ 122 then r - 32 else r

/-- The runes an address's hex form and its case variants are made of:
`0`-`9`, `a`-`f`, `A`-`F`, `x`, `X`. -/
def isHexRune (r : Nat) : Bool :=
  (48 ≤ r && r ≤ 57) || (97 ≤ r && r ≤ 102) || (65 ≤ r && r ≤ 70) || r == 120 || r == 88

/-- The 20 bytes of `0xc02aaa39b223fe8d0a0e5c4f27ead9083c756cc2`. -/
def wethAddress : Address :=
  ⟨[0xc0, 0x2a, 0xaa, 0x39, 0xb2, 0x23, 0xfe, 0x8d, 0x0a, 0x0e,
    0x5c, 0x4f, 0x27, 0xea, 0xd9, 0x08, 0x3c, 0x75, 0x6c, 0xc2], rfl⟩

/-- `default_input_token_address` of `main`, as runes. -/
def default_input_token_address : List Nat :=
  "0xc02aaa39b223fe8d0a0e5c4f27ead9083c756cc2".toList.map Char.toNat

/-! ## `math/big` floats (`main`, lines 146-156 and 192-195; `getAmountInput`)

A non-negative finite `*big.Float` is kept as its precision and its exact
value `num / den` (`BigFloat`); the sign and the infinities that `SetString`
can also produce are added by `SignedFloat`. Every operation of `math/big`
computes the exact result and rounds it once to the precision of the receiver
with the default mode `ToNearestEven`. -/

/-- Loop of `BitLen`: one step per bit, bounded by the fuel. -/
def bitLenAux : Nat → Nat → Nat
  | 0, _ => 0
  | fuel + 1, n => if n = 0 then 0 else bitLenAux fuel (n / 2) + 1

/-- `(*big.Int).BitLen()`: the number of bits of `n`, 0 for 0. -/
def BitLen (n : Nat) : Nat := bitLenAux n n

/-- Rounding of the exact value `n / d` (with `d > 0`) to `p` mantissa bits,
ties to even (`(*Float).round` with mode `ToNearestEven`). The value is first
scaled by a power of two so that its integer part has exactly `p` bits: `n` is
shifted left by `up` bits or `d` by `dn` bits according to the bit lengths,
and `d` by one more bit when the quotient would still have `p + 1` bits. The
result is the pair `(num, den)` with `den` a power of two. -/
def roundNE (p n d : Nat) : Nat × Nat :=
  if n = 0 then (0, 1)
  else
    let up := (p + BitLen d) - BitLen n
    let dn := BitLen n - (p + BitLen d)
    let N := n * 2 ^ up
    let D0 := d * 2 ^ dn
    let extra := if 2 ^ p * D0 ≤ N then 1 else 0
    let D := D0 * 2 ^ extra
    let q := N / D
    let r := N % D
    let q' := if D < 2 * r ∨ (D = 2 * r ∧ q % 2 = 1) then q + 1 else q
    (q' * 2 ^ (dn + extra), 2 ^ up)

/-- A non-negative finite `big.Float`: precision and exact value `num / den`. -/
structure BigFloat where
  prec : Nat
  num : Nat
  den : Nat
  deriving DecidableEq, Repr

/-- The exact value `n / d` rounded into a float of precision `p`. -/
def BigFloat.round (p n d : Nat) : BigFloat :=
  { prec := p, num := (roundNE p n d).1, den := (roundNE p n d).2 }

/-- `new(big.Float).SetInt(x)`: precision `max(x.BitLen(), 64)`, value exact. -/
def SetInt (x : Nat) : BigFloat :=
  { prec := max (BitLen x) 64, num := x, den := 1 }

/-- `z.Mul(x, y)` for a receiver of precision `p`. -/
def MulPrec (p : Nat) (x y : BigFloat) : BigFloat :=
  BigFloat.round p (x.num * y.num) (x.den * y.den)

/-- `new(big.Float).Mul(x, y)`: the receiver has precision 0, which becomes
the larger of the operands' precisions. -/
def Mul (x y : BigFloat) : BigFloat := MulPrec (max x.prec y.prec) x y

/-- `new(big.Float).Quo(x, y)` for `y ≠ 0`: precision as for `Mul`. -/
def Quo (x y : BigFloat) : BigFloat :=
  BigFloat.round (max x.prec y.prec) (x.num * y.den) (x.den * y.num)

/-- `x.Int(z)`: the value truncated towards zero. -/
def BigFloat.Int (x : BigFloat) : Nat := x.num / x.den

/-- The loop of `(*Float).pow5` for `n > 27`: `z` has precision 128 and `f`
precision 192; one step per bit of `n`. -/
def pow5Loop : Nat → Nat → BigFloat → BigFloat → BigFloat
  | 0, _, z, _ => z
  | fuel + 1, n, z, f =>
      if n = 0 then z
      else
        let z' := if n % 2 ≠ 0 then MulPrec 128 z f else z
        pow5Loop fuel (n / 2) z' (MulPrec 192 f f)

/-- `p.pow5(n)` for `p` of precision 128 (`z.Prec() + 64` in `scan`): exact
from the table up to `5^27`, by repeated squaring above. -/
def pow5 (n : Nat) : BigFloat :=
  if n ≤ 27 then { prec := 128, num := 5 ^ n, den := 1 }
  else pow5Loop n (n - 27) { prec := 128, num := 5 ^ 27, den := 1 }
    { prec := 192, num := 5, den := 1 }

/-- The mantissa scan of `(*Float).scan` on a plain decimal text (digits with
at most one radix point, no sign, prefix, separator or exponent): the digits
read as a natural number and the count of digits after the point. `none` for
a text outside this form or without a digit. -/
def scanDecimal : List Char → Nat → Bool → Nat → Nat → Option (Nat × Nat)
  | [], mant, _, fcount, count => if count = 0 then none else some (mant, fcount)
  | c :: cs, mant, seenPoint, fcount, count =>
      if c = '.' then
        if seenPoint then none else scanDecimal cs mant true fcount count
      else if c.isDigit then
        scanDecimal cs (mant * 10 + (c.toNat - 48)) seenPoint
          (if seenPoint then fcount + 1 else fcount) (count + 1)
      else none

/-- `new(big.Float).SetString(input)` on a plain decimal text with digits
`mant` and `fcount` fractional digits: precision 64; the value is
`mant * 2^(-fcount)` divided by `pow5(fcount)` (or just rounded when there is
no fractional digit). -/
def SetStringDigits (mant fcount : Nat) : BigFloat :=
  if mant = 0 then { prec := 64, num := 0, den := 1 }
  else if fcount = 0 then BigFloat.round 64 mant 1
  else BigFloat.round 64 (mant * (pow5 fcount).den) (2 ^ fcount * (pow5 fcount).num)

/-- A `*big.Float` of either sign, finite or infinite. -/
inductive SignedFloat where
  | finite (neg : Bool) (abs : BigFloat)
  | inf (neg : Bool)
  deriving DecidableEq, Repr

/-- `new(big.Float).SetString(s)`: `some` float on success, `none` when the
text is not a number. A plain decimal text (digits with at most one radix
point and at least one digit) of fewer than `2^28` characters is parsed here.
For every other text (a sign, `Inf`, a base prefix, `_` separators, an
exponent, no digit, or a length at which exponents can leave the `int32`
range) the result is whatever the library returns, the parameter
`otherForms`. -/
def SetString (otherForms : List Char → Option SignedFloat) (s : List Char) :
    Option SignedFloat :=
  if s.length < 2 ^ 28 then
    match scanDecimal s 0 false 0 0 with
    | some (mant, fcount) => some (SignedFloat.finite false (SetStringDigits mant fcount))
    | none => otherForms s
  else otherForms s

/-- `default_input_amount` of `main`. -/
def default_input_amount : List Char := "1".toList

/-- `func getAmountInput(prompt string, amount_default string) *big.Float`.
The first argument lists the results of the successive `fmt.Scanln(&input)`
calls: `some` token, or `none` when `Scanln` returned an error (an empty line,
more than one token, end of input), in which case `amount_default` is parsed
instead. The loop returns at the first text that `SetString` accepts; the
result is `none` when none of the listed lines was accepted, the loop then
still prompting. -/
def getAmountInput (otherForms : List Char → Option SignedFloat) :
    List (Option (List Char)) → List Char → Option SignedFloat
  | [], _ => none
  | scanned :: later, amount_default =>
      let input := match scanned with
        | some token => token
        | none => amount_default
      match SetString otherForms input with
      | some amount => some amount
      | none => getAmountInput otherForms later amount_default

/-- `input_amount_raw` of `main` for a non-negative finite `input_amount`
whose product with `10^decimals` stays finite: the product as a float, then
its integer part. -/
def input_amount_raw (input_amount : BigFloat) (decimals : Nat) : Nat :=
  (Mul input_amount (SetInt (10 ^ decimals))).Int

/-- `big.MaxExp`: the largest exponent of a finite float, `math.MaxInt32`. A
finite float is below `2^MaxExp`. -/
def MaxExp : Nat := 2 ^ 31 - 1

/-- Lines 147-156 of `main` for any `input_amount`. An infinite amount has an
infinite product, and so has a finite one whose rounded product reaches
`2^MaxExp` (its numerator has `MaxExp` more bits than its power-of-two
denominator); `Int` of an infinity returns `nil` and leaves `input_amount_raw`
at the zero value of `new(big.Int)`. Otherwise the product is truncated
towards zero and keeps the sign of the amount. -/
def input_amount_raw_main (input_amount : SignedFloat) (decimals : Nat) : Int :=
  match input_amount with
  | SignedFloat.inf _ => 0
  | SignedFloat.finite neg x =>
      let product := Mul x (SetInt (10 ^ decimals))
      if BitLen product.den + MaxExp ≤ BitLen product.num then 0
      else if neg then -((product.Int : Nat) : Int) else ((product.Int : Nat) : Int)

/-- `readable_output` of `main`: the float quotient of the raw amount by
`10^decimals`. -/
def readable_output (output_amount decimals : Nat) : BigFloat :=
  Quo (SetInt output_amount) (SetInt (10 ^ decimals))

/-- The exact value of a plain decimal text, as a rational. -/
def decimalValue (mant fcount : Nat) : ℚ := (mant : ℚ) / (10 : ℚ) ^ fcount

/-! ## Theorems: quote formula -/

theorem output_amount_ok_of_pos (x y a : Int) (h : 0 < denominator x a) :
    output_amount x y a = Outcome.ok (Int.ediv (numerator y a) (denominator x a)) := by
  unfold output_amount bigDiv
  rw [if_neg (ne_of_gt h)]

theorem denominator_nonneg {x a : Int} (hx : 0 ≤ x) (ha : 0 ≤ a) : 0 ≤ denominator x a := by
  unfold denominator fee feeBase
  positivity

theorem denominator_eq_zero_iff {x a : Int} (hx : 0 ≤ x) (ha : 0 ≤ a) :
    denominator x a = 0 ↔ x = 0 ∧ a = 0 := by
  unfold denominator fee feeBase
  constructor
  · intro h
    constructor <;> omega
  · rintro ⟨rfl, rfl⟩
    rfl

theorem denominator_pos {x a : Int} (hx : 0 ≤ x) (ha : 0 ≤ a) (h : ¬ (x = 0 ∧ a = 0)) :
    0 < denominator x a := by
  have h0 := denominator_nonneg hx ha
  have h1 : denominator x a ≠ 0 := fun e => h ((denominator_eq_zero_iff hx ha).1 e)
  omega

theorem output_amount_fail_of_zero (y : Int) :
    output_amount 0 y 0 = Outcome.fail Failure.divisionByZero := by
  unfold output_amount bigDiv
  rw [if_pos (by decide)]

theorem denominator_pos_of_ok {x y a v : Int} (hx : 0 ≤ x) (ha : 0 ≤ a)
    (e : output_amount x y a = Outcome.ok v) : 0 < denominator x a := by
  apply denominator_pos hx ha
  rintro ⟨rfl, rfl⟩
  rw [output_amount_fail_of_zero] at e
  cases e

/-- C1: for non-negative reserves and input amount with a positive denominator
the output amount computed in `main` is the floor of the exact rational
`reserveOut * (997 * amountIn) / (reserveIn * 1000 + 997 * amountIn)`, and in
the concrete scenario (10^12, 2 * 10^6, 10^9) it is 1992. -/
theorem output_amount_eq_floor (reserveIn reserveOut amountIn : Int)
    (_hx : 0 ≤ reserveIn) (_hy : 0 ≤ reserveOut) (_ha : 0 ≤ amountIn)
    (h : 0 < reserveIn * 1000 + 997 * amountIn) :
    output_amount reserveIn reserveOut amountIn =
        Outcome.ok ⌊((reserveOut : ℚ) * (997 * (amountIn : ℚ))) /
          ((reserveIn : ℚ) * 1000 + 997 * (amountIn : ℚ))⌋
      ∧ output_amount 1000000000000 2000000 1000000000 = Outcome.ok 1992 := by
  constructor
  · have hd : 0 < denominator reserveIn amountIn := h
    rw [output_amount_ok_of_pos _ _ _ hd]
    congr 1
    have hcast : ((reserveIn : ℚ) * 1000 + 997 * (amountIn : ℚ)) =
        (((denominator reserveIn amountIn).toNat : ℕ) : ℚ) := by
      have : ((denominator reserveIn amountIn).toNat : Int) = denominator reserveIn amountIn :=
        Int.toNat_of_nonneg (le_of_lt hd)
      have h2 : (((denominator reserveIn amountIn).toNat : Int) : ℚ) =
          ((denominator reserveIn amountIn : Int) : ℚ) := by rw [this]
      rw [Int.cast_natCast] at h2
      rw [h2]
      unfold denominator fee feeBase
      push_cast
      ring
    have hnum : ((reserveOut : ℚ) * (997 * (amountIn : ℚ))) =
        ((numerator reserveOut amountIn : Int) : ℚ) := by
      unfold numerator fee
      push_cast
      ring
    rw [hcast, hnum, Rat.floor_intCast_div_natCast, Int.toNat_of_nonneg (le_of_lt hd)]
    rfl
  · decide

theorem output_amount_eq_floor_witness :
    output_amount 1000000000000 2000000 1000000000 =
        Outcome.ok ⌊(((2000000 : Int) : ℚ) * (997 * ((1000000000 : Int) : ℚ))) /
          (((1000000000000 : Int) : ℚ) * 1000 + 997 * ((1000000000 : Int) : ℚ))⌋
      ∧ output_amount 1000000000000 2000000 1000000000 = Outcome.ok 1992 :=
  output_amount_eq_floor 1000000000000 2000000 1000000000
    (by decide) (by decide) (by decide) (by decide)

/-- C3 (as stated) fails: with an empty input-side reserve the whole output
reserve is quoted, and with an empty output-side reserve the quote is 0, so in
neither case is the quote strictly below `reserveOut`. -/
theorem output_amount_lt_reserveOut_counterexample :
    output_amount 0 5 1 = Outcome.ok 5 ∧ output_amount 7 0 1 = Outcome.ok 0 := by
  decide

/-- C3 (amended): for positive reserves and a positive input amount the quote
is returned, is non-negative and is strictly less than `reserveOut`. -/
theorem output_amount_lt_reserveOut (reserveIn reserveOut amountIn : Int)
    (hx : 0 < reserveIn) (hy : 0 < reserveOut) (ha : 0 < amountIn) :
    ∃ v, output_amount reserveIn reserveOut amountIn = Outcome.ok v ∧ 0 ≤ v ∧ v < reserveOut := by
  have hd : 0 < denominator reserveIn amountIn :=
    denominator_pos (le_of_lt hx) (le_of_lt ha) (fun h => absurd h.1 (ne_of_gt hx))
  refine ⟨_, output_amount_ok_of_pos _ _ _ hd, ?_, ?_⟩
  · apply Int.ediv_nonneg _ (le_of_lt hd)
    unfold numerator fee
    positivity
  · apply Int.ediv_lt_of_lt_mul hd
    unfold numerator denominator fee feeBase
    nlinarith [mul_pos hy hx]

theorem output_amount_lt_reserveOut_witness :
    ∃ v, output_amount 1000000000000 2000000 1000000000 = Outcome.ok v ∧ 0 ≤ v ∧ v < 2000000 :=
  output_amount_lt_reserveOut 1000000000000 2000000 1000000000
    (by decide) (by decide) (by decide)

/-- C4: for non-negative inputs the quote computation ends in the
division-by-zero failure exactly when `reserveIn = 0` and `amountIn = 0`, and
returns a value for every other non-negative input. -/
theorem output_amount_fails_iff (reserveIn reserveOut amountIn : Int)
    (hx : 0 ≤ reserveIn) (_hy : 0 ≤ reserveOut) (ha : 0 ≤ amountIn) :
    (output_amount reserveIn reserveOut amountIn = Outcome.fail Failure.divisionByZero
        ↔ reserveIn = 0 ∧ amountIn = 0)
      ∧ ((∃ v, output_amount reserveIn reserveOut amountIn = Outcome.ok v)
        ↔ ¬ (reserveIn = 0 ∧ amountIn = 0)) := by
  by_cases h : reserveIn = 0 ∧ amountIn = 0
  · have hd : denominator reserveIn amountIn = 0 := (denominator_eq_zero_iff hx ha).2 h
    have he : output_amount reserveIn reserveOut amountIn
        = Outcome.fail Failure.divisionByZero := by
      unfold output_amount bigDiv
      rw [if_pos hd]
    rw [he]
    simp [h]
  · have hd := denominator_pos hx ha h
    rw [output_amount_ok_of_pos _ _ _ hd]
    simp [h]

theorem output_amount_fails_iff_witness :
    (output_amount 0 2000000 0 = Outcome.fail Failure.divisionByZero
        ↔ (0 : Int) = 0 ∧ (0 : Int) = 0)
      ∧ ((∃ v, output_amount 0 2000000 0 = Outcome.ok v)
        ↔ ¬ ((0 : Int) = 0 ∧ (0 : Int) = 0)) :=
  output_amount_fails_iff 0 2000000 0 (by decide) (by decide) (by decide)

/-- C5: for fixed non-negative reserves and non-negative amounts `a1 ≤ a2`
whose quotes are both defined, the quote for `a1` is at most the quote for
`a2`. -/
theorem output_amount_mono (reserveIn reserveOut a1 a2 v1 v2 : Int)
    (hx : 0 ≤ reserveIn) (hy : 0 ≤ reserveOut) (h1 : 0 ≤ a1) (h12 : a1 ≤ a2)
    (e1 : output_amount reserveIn reserveOut a1 = Outcome.ok v1)
    (e2 : output_amount reserveIn reserveOut a2 = Outcome.ok v2) :
    v1 ≤ v2 := by
  have h2 : 0 ≤ a2 := le_trans h1 h12
  have hd1 : 0 < denominator reserveIn a1 := denominator_pos_of_ok hx h1 e1
  have hd2 : 0 < denominator reserveIn a2 := denominator_pos_of_ok hx h2 e2
  rw [output_amount_ok_of_pos _ _ _ hd1] at e1
  rw [output_amount_ok_of_pos _ _ _ hd2] at e2
  cases e1
  cases e2
  show numerator reserveOut a1 / denominator reserveIn a1
    ≤ numerator reserveOut a2 / denominator reserveIn a2
  rw [Int.le_ediv_iff_mul_le hd2]
  have hq := Int.ediv_mul_le (numerator reserveOut a1) (ne_of_gt hd1)
  -- cross-multiplied comparison of the two exact fractions
  have hcross : numerator reserveOut a1 * denominator reserveIn a2
      ≤ numerator reserveOut a2 * denominator reserveIn a1 := by
    unfold numerator denominator fee feeBase
    have : 0 ≤ reserveOut * reserveIn * (a2 - a1) :=
      mul_nonneg (mul_nonneg hy hx) (by omega)
    nlinarith
  have hstep : numerator reserveOut a1 / denominator reserveIn a1 * denominator reserveIn a2
      * denominator reserveIn a1 ≤ numerator reserveOut a2 * denominator reserveIn a1 := by
    calc numerator reserveOut a1 / denominator reserveIn a1 * denominator reserveIn a2
          * denominator reserveIn a1
        = (numerator reserveOut a1 / denominator reserveIn a1 * denominator reserveIn a1)
          * denominator reserveIn a2 := by ring
      _ ≤ numerator reserveOut a1 * denominator reserveIn a2 :=
          mul_le_mul_of_nonneg_right hq (le_of_lt hd2)
      _ ≤ _ := hcross
  exact le_of_mul_le_mul_right hstep hd1

theorem output_amount_mono_witness :
    output_amount 1000000000000 2000000 1000000000 = Outcome.ok 1992
      ∧ output_amount 1000000000000 2000000 2000000000 = Outcome.ok 3980
      ∧ (1992 : Int) ≤ 3980 :=
  ⟨by decide, by decide,
    output_amount_mono 1000000000000 2000000 1000000000 2000000000 1992 3980
      (by decide) (by decide) (by decide) (by decide) (by decide) (by decide)⟩

/-- C8 (as stated) fails: with `reserveIn = 0` the zero-input quote divides by
zero and yields no value. -/
theorem output_amount_zero_input_counterexample :
    output_amount 0 2000000 0 = Outcome.fail Failure.divisionByZero := by
  decide

/-- C8 (amended): for every positive `reserveIn` and non-negative `reserveOut`
the quote for `amountIn = 0` is 0. -/
theorem output_amount_zero_input (reserveIn reserveOut : Int)
    (hx : 0 < reserveIn) (_hy : 0 ≤ reserveOut) :
    output_amount reserveIn reserveOut 0 = Outcome.ok 0 := by
  have hd : 0 < denominator reserveIn 0 :=
    denominator_pos (le_of_lt hx) (le_refl 0) (fun h => absurd h.1 (ne_of_gt hx))
  rw [output_amount_ok_of_pos _ _ _ hd]
  congr 1
  show (numerator reserveOut 0) / (denominator reserveIn 0) = 0
  simp [numerator]

theorem output_amount_zero_input_witness :
    output_amount 1000000000000 2000000 0 = Outcome.ok 0 :=
  output_amount_zero_input 1000000000000 2000000 (by decide) (by decide)

/-! ## Theorems: response decoding -/

theorem parseReservesFromBytes_ok (data : List Byte) (h : 96 ≤ data.length) :
    ∃ b0 b1 b2 b3 rest, (data.drop 64).take 32 = b0 :: b1 :: b2 :: b3 :: rest ∧
      parseReservesFromBytes data = Outcome.ok
        { _reserve0 := SetBytes (data.take 32),
          _reserve1 := SetBytes ((data.drop 32).take 32),
          _blockTimestampLast :=
            (b3.val ||| (b2.val <<< 8) ||| (b1.val <<< 16) ||| (b0.val <<< 24)) % 2 ^ 32 } := by
  have hlen : ((data.drop 64).take 32).length = 32 := by
    rw [List.length_take, List.length_drop]
    omega
  match hts : (data.drop 64).take 32, hlen with
  | b0 :: b1 :: b2 :: b3 :: rest, _ =>
    refine ⟨b0, b1, b2, b3, rest, rfl, ?_⟩
    unfold parseReservesFromBytes
    rw [if_neg (by omega)]
    simp only [hts, BigEndianUint32, List.drop_zero]

/-- C9: on a 96-byte `getReserves` response whose third word encodes the
timestamp 0x65432101, `parseReservesFromBytes` succeeds with the two reserves
but reports timestamp 0, while the last four bytes of the slot hold
0x65432101: the code reads the first four bytes of the slot. -/
theorem parseReservesFromBytes_timestamp_reads_slot_head :
    parseReservesFromBytes reservesResponse =
        Outcome.ok { _reserve0 := 1000, _reserve1 := 2000, _blockTimestampLast := 0 }
      ∧ SetBytes ((reservesResponse.drop 92).take 4) = 0x65432101 := by
  decide

theorem symbolFallback_sliceOutOfRange_iff (result : List Byte) :
    symbolFallback result = Outcome.fail Failure.sliceOutOfRange ↔
      96 ≤ result.length ∧ 2 ^ 64 - 64 ≤ Uint64 (SetBytes ((result.drop 32).take 32)) := by
  have hL : Uint64 (SetBytes ((result.drop 32).take 32)) < 2 ^ 64 :=
    Nat.mod_lt _ (by decide)
  unfold symbolFallback
  simp only [addUint64, goSlice]
  generalize Uint64 (SetBytes ((result.drop 32).take 32)) = L at hL ⊢
  norm_num at hL ⊢
  by_cases hlen : 96 ≤ result.length
  · by_cases hbig : 18446744073709551552 ≤ L
    · have hadd : (64 + L) % 18446744073709551616 = 64 + L - 18446744073709551616 := by omega
      have h63 : 64 + L - 18446744073709551616 < 64 := by omega
      simp only [hadd, hlen, hbig, and_self, iff_true]
      rw [if_pos (by trivial), if_pos (by omega), if_neg (by omega)]
    · have hadd : (64 + L) % 18446744073709551616 = 64 + L := by omega
      simp only [hadd, hlen, hbig, and_false, iff_false]
      rw [if_pos (by trivial)]
      by_cases hg : 0 < L ∧ 64 + L ≤ result.length
      · rw [if_pos hg, if_pos (by omega)]
        show ¬ (if List.take (64 + L - 64) (List.drop 64 result) = [] then _ else _) = _
        split <;> simp
      · rw [if_neg hg]
        simp
  · simp [hlen]

/-- C10: on a response whose offset word is 32 and whose length word is
2^64 - 1, the manual fallback passes its guard (64 + length wraps to 63) and
then evaluates `result[64:63]`, a slice-bounds run-time panic. -/
theorem symbolFallback_wraps_and_panics :
    symbolFallback symbolResponse = Outcome.fail Failure.sliceOutOfRange
      ∧ symbolResponse.length = 96
      ∧ Uint64 (SetBytes ((symbolResponse.drop 32).take 32)) = 2 ^ 64 - 1
      ∧ addUint64 64 (Uint64 (SetBytes ((symbolResponse.drop 32).take 32))) = 63 := by
  decide

/-! ## Theorems: reserve ordering -/

theorem isHexRune_iff (r : Nat) : isHexRune r = true ↔
    (48 ≤ r ∧ r ≤ 57) ∨ (97 ≤ r ∧ r ≤ 102) ∨ (65 ≤ r ∧ r ≤ 70) ∨ r = 120 ∨ r = 88 := by
  unfold isHexRune
  simp only [Bool.or_eq_true, Bool.and_eq_true, decide_eq_true_eq, beq_iff_eq, or_assoc]

theorem foldStep_hex (SimpleFold : Nat → Nat) (fuel : Nat) (hfuel : 2 ≤ fuel)
    (hfold : ∀ c, isHexRune c = true → SimpleFold c = swapCase c)
    (s t : Nat) (hs : isHexRune s = true) :
    foldStep SimpleFold fuel s t = some (decide (asciiLower t = asciiLower s)) := by
  have hs2 : isHexRune (swapCase s) = true := by
    rw [isHexRune_iff] at hs ⊢
    unfold swapCase
    split_ifs <;> omega
  have hs' := (isHexRune_iff s).1 hs
  have hss : swapCase (swapCase s) = s := by
    unfold swapCase
    split_ifs <;> omega
  have hs128 : s < 128 ∧ swapCase s < 128 := by
    unfold swapCase
    split_ifs <;> omega
  unfold foldStep
  by_cases hts : t = s
  · simp [hts]
  · rw [if_neg hts]
    by_cases ht : t < 128
    · have : (if t < s then s else t) < 0x80 := by split_ifs <;> omega
      simp only [this, if_true]
      congr 1
      unfold asciiLower
      rw [decide_eq_decide]
      split_ifs <;> omega
    · have h1 : ¬ t < s := by omega
      simp only [h1, if_false]
      rw [if_neg (by omega)]
      obtain ⟨f, rfl⟩ : ∃ f, fuel = f + 2 := ⟨fuel - 2, by omega⟩
      have hne : asciiLower t ≠ asciiLower s := by
        unfold asciiLower
        split_ifs <;> omega
      rw [hfold s hs]
      by_cases hsw : swapCase s = s
      · simp [foldLoop, hsw, hne]
        omega
      · have hlt : swapCase s < t := by omega
        simp [foldLoop, hsw, hlt, hfold _ hs2, hss, hne]
        omega

theorem EqualFold_hex (SimpleFold : Nat → Nat) (fuel : Nat) (hfuel : 2 ≤ fuel)
    (hfold : ∀ c, isHexRune c = true → SimpleFold c = swapCase c) :
    ∀ (s t : List Nat), (∀ c ∈ s, isHexRune c = true) →
      EqualFold SimpleFold fuel s t = some (decide (t.map asciiLower = s.map asciiLower)) := by
  intro s
  induction s with
  | nil =>
    intro t _
    cases t <;> simp [EqualFold]
  | cons c cs ih =>
    intro t hall
    cases t with
    | nil => simp [EqualFold]
    | cons d ds =>
      have hc : isHexRune c = true := hall c (List.mem_cons_self _ _)
      have hcs : ∀ x ∈ cs, isHexRune x = true := fun x hx => hall x (List.mem_cons_of_mem _ hx)
      unfold EqualFold
      rw [foldStep_hex SimpleFold fuel hfuel hfold c d hc]
      by_cases hd : asciiLower d = asciiLower c
      · simp only [hd, decide_True, List.map_cons, List.cons.injEq, true_and]
        exact ih ds hcs
      · simp [hd]

/-- A lower-case hex digit: `0`-`9` or `a`-`f`. -/
theorem hextable_getD_cases (n : Nat) (h : n < 16) :
    (48 ≤ hextable.getD n 0 ∧ hextable.getD n 0 ≤ 57 ∧ hextable.getD n 0 = 48 + n) ∨
    (97 ≤ hextable.getD n 0 ∧ hextable.getD n 0 ≤ 102 ∧ hextable.getD n 0 = 87 + n) := by
  interval_cases n <;> simp [hextable]

theorem hexEncode_lower (bs : List Byte) :
    ∀ c ∈ hexEncode bs, (48 ≤ c ∧ c ≤ 57) ∨ (97 ≤ c ∧ c ≤ 102) := by
  induction bs with
  | nil => simp [hexEncode]
  | cons v rest ih =>
    intro c hc
    simp only [hexEncode, List.mem_cons] at hc
    have h1 : v.val >>> 4 < 16 := by
      rw [Nat.shiftRight_eq_div_pow]
      have := v.isLt
      omega
    have h2 : v.val &&& 0x0f < 16 := by
      have : v.val &&& 0x0f ≤ 0x0f := Nat.and_le_right
      omega
    rcases hc with rfl | rfl | hc
    · rcases hextable_getD_cases _ h1 with h | h <;> omega
    · rcases hextable_getD_cases _ h2 with h | h <;> omega
    · exact ih c hc

theorem checksumLoop_spec (hash : List Byte) :
    ∀ (cs : List Nat) (i : Nat), (∀ c ∈ cs, (48 ≤ c ∧ c ≤ 57) ∨ (97 ≤ c ∧ c ≤ 102)) →
      (checksumLoop hash i cs).map asciiLower = cs ∧
      ∀ c ∈ checksumLoop hash i cs, isHexRune c = true := by
  intro cs
  induction cs with
  | nil =>
    intro i _
    simp [checksumLoop]
  | cons c rest ih =>
    intro i hall
    have hc := hall c (List.mem_cons_self _ _)
    have hrest := ih (i + 1) (fun x hx => hall x (List.mem_cons_of_mem _ hx))
    simp only [checksumLoop, List.map_cons, List.mem_cons, forall_eq_or_imp]
    refine ⟨?_, ?_, hrest.2⟩
    · rw [hrest.1]
      congr 1
      unfold asciiLower
      split_ifs <;> omega
    · rw [isHexRune_iff]
      split_ifs <;> omega

theorem Hex_lower (keccak256 : List Nat → List Byte) (a : Address) :
    (a.Hex keccak256).map asciiLower = a.hex ∧ ∀ c ∈ a.Hex keccak256, isHexRune c = true := by
  have h := checksumLoop_spec (keccak256 (hexEncode a.bytes)) (hexEncode a.bytes) 2
    (hexEncode_lower a.bytes)
  unfold Address.Hex Address.hex
  refine ⟨?_, ?_⟩
  · simp only [List.map_cons, h.1]
    rfl
  · intro c hc
    simp only [List.mem_cons] at hc
    rcases hc with rfl | rfl | hc
    · rfl
    · rfl
    · exact h.2 c hc

theorem hexEncode_injective : ∀ (xs ys : List Byte), hexEncode xs = hexEncode ys → xs = ys := by
  intro xs
  induction xs with
  | nil =>
    intro ys h
    cases ys with
    | nil => rfl
    | cons y ys => simp [hexEncode] at h
  | cons x xs ih =>
    intro ys h
    cases ys with
    | nil => simp [hexEncode] at h
    | cons y ys =>
      simp only [hexEncode, List.cons.injEq] at h
      obtain ⟨h1, h2, h3⟩ := h
      rw [ih ys h3]
      congr 1
      have hx1 : x.val >>> 4 < 16 := by
        rw [Nat.shiftRight_eq_div_pow]
        have := x.isLt
        omega
      have hy1 : y.val >>> 4 < 16 := by
        rw [Nat.shiftRight_eq_div_pow]
        have := y.isLt
        omega
      have hx2 : x.val &&& 0x0f < 16 := by
        have : x.val &&& 0x0f ≤ 0x0f := Nat.and_le_right
        omega
      have hy2 : y.val &&& 0x0f < 16 := by
        have : y.val &&& 0x0f ≤ 0x0f := Nat.and_le_right
        omega
      have e1 : x.val >>> 4 = y.val >>> 4 := by
        rcases hextable_getD_cases _ hx1 with a | a <;>
          rcases hextable_getD_cases _ hy1 with b | b <;> omega
      have e2 : x.val &&& 0x0f = y.val &&& 0x0f := by
        rcases hextable_getD_cases _ hx2 with a | a <;>
          rcases hextable_getD_cases _ hy2 with b | b <;> omega
      have m1 : x.val &&& 0x0f = x.val % 16 := Nat.and_pow_two_sub_one_eq_mod x.val 4
      have m2 : y.val &&& 0x0f = y.val % 16 := Nat.and_pow_two_sub_one_eq_mod y.val 4
      rw [Nat.shiftRight_eq_div_pow, Nat.shiftRight_eq_div_pow] at e1
      apply Fin.ext
      omega

theorem Address.hex_injective (a b : Address) (h : a.hex = b.hex) : a = b := by
  unfold Address.hex at h
  simp only [List.cons.injEq, true_and] at h
  have := hexEncode_injective _ _ h
  cases a
  cases b
  simp only [Address.mk.injEq]
  exact this

theorem orderReserves_eq (SimpleFold : Nat → Nat) (keccak256 : List Nat → List Byte)
    (fuel : Nat) (hfuel : 2 ≤ fuel)
    (hfold : ∀ c, isHexRune c = true → SimpleFold c = swapCase c)
    (token0 : Address) (input : List Nat) (reserves : PoolReserves) :
    orderReserves SimpleFold keccak256 fuel token0 input reserves =
      some (if input.map asciiLower = token0.hex
            then (reserves._reserve0, reserves._reserve1)
            else (reserves._reserve1, reserves._reserve0)) := by
  have hH := Hex_lower keccak256 token0
  unfold orderReserves
  rw [EqualFold_hex SimpleFold fuel hfuel hfold _ input hH.2, hH.1]
  by_cases h : input.map asciiLower = token0.hex <;> simp [h]

/-- C6: with `unicode.SimpleFold` acting as the ASCII case swap on the hex
runes, the reserve ordering in `main` yields `(reserve0, reserve1)` exactly
when the input string equals token0's 0x-prefixed hex form ignoring letter
case and `(reserve1, reserve0)` otherwise; an input that is the hex form (in
any letter case) of token0 gives `(reserve0, reserve1)`, one that is the hex
form of a different address gives `(reserve1, reserve0)`. -/
theorem orderReserves_spec (SimpleFold : Nat → Nat) (keccak256 : List Nat → List Byte)
    (fuel : Nat) (hfuel : 2 ≤ fuel)
    (hfold : ∀ c, isHexRune c = true → SimpleFold c = swapCase c)
    (token0 : Address) (input : List Nat) (reserves : PoolReserves) :
    orderReserves SimpleFold keccak256 fuel token0 input reserves =
        some (if input.map asciiLower = (token0.Hex keccak256).map asciiLower
              then (reserves._reserve0, reserves._reserve1)
              else (reserves._reserve1, reserves._reserve0))
      ∧ (input.map asciiLower = token0.hex →
          orderReserves SimpleFold keccak256 fuel token0 input reserves =
            some (reserves._reserve0, reserves._reserve1))
      ∧ (∀ token1 : Address, token1 ≠ token0 → input.map asciiLower = token1.hex →
          orderReserves SimpleFold keccak256 fuel token0 input reserves =
            some (reserves._reserve1, reserves._reserve0)) := by
  have hmain := orderReserves_eq SimpleFold keccak256 fuel hfuel hfold token0 input reserves
  refine ⟨?_, ?_, ?_⟩
  · rw [(Hex_lower keccak256 token0).1]
    exact hmain
  · intro h
    rw [hmain, if_pos h]
  · intro token1 hne h
    rw [hmain, if_neg]
    intro h0
    exact hne (Address.hex_injective token1 token0 (h.symm.trans h0))

theorem orderReserves_spec_witness :
    orderReserves swapCase (fun _ => []) 2 wethAddress default_input_token_address
        { _reserve0 := 1000, _reserve1 := 2000, _blockTimestampLast := 0 } =
        some (if default_input_token_address.map asciiLower
                = (wethAddress.Hex (fun _ => [])).map asciiLower
              then ((1000 : Int), (2000 : Int)) else ((2000 : Int), (1000 : Int)))
      ∧ (default_input_token_address.map asciiLower = wethAddress.hex →
          orderReserves swapCase (fun _ => []) 2 wethAddress default_input_token_address
            { _reserve0 := 1000, _reserve1 := 2000, _blockTimestampLast := 0 } =
            some ((1000 : Int), (2000 : Int)))
      ∧ (∀ token1 : Address, token1 ≠ wethAddress →
          default_input_token_address.map asciiLower = token1.hex →
          orderReserves swapCase (fun _ => []) 2 wethAddress default_input_token_address
            { _reserve0 := 1000, _reserve1 := 2000, _blockTimestampLast := 0 } =
            some ((2000 : Int), (1000 : Int))) :=
  orderReserves_spec swapCase (fun _ => []) 2 (by decide) (fun _ _ => rfl)
    wethAddress default_input_token_address
    { _reserve0 := 1000, _reserve1 := 2000, _blockTimestampLast := 0 }

/-! ## Theorems: floats -/

theorem bitLenAux_spec : ∀ (fuel n : Nat), n ≤ fuel →
    n < 2 ^ bitLenAux fuel n ∧ (n ≠ 0 → 2 ^ (bitLenAux fuel n - 1) ≤ n) := by
  intro fuel
  induction fuel with
  | zero =>
    intro n hn
    have : n = 0 := by omega
    subst this
    simp [bitLenAux]
  | succ f ih =>
    intro n hn
    unfold bitLenAux
    by_cases h0 : n = 0
    · simp [h0]
    · rw [if_neg h0]
      have hdiv : n / 2 ≤ f := by omega
      obtain ⟨h1, h2⟩ := ih (n / 2) hdiv
      refine ⟨?_, fun _ => ?_⟩
      · rw [pow_succ]
        omega
      · simp only [Nat.add_sub_cancel]
        by_cases h3 : n / 2 = 0
        · have ha : bitLenAux f (n / 2) = 0 := by
            rw [h3]
            cases f <;> simp [bitLenAux]
          rw [ha]
          simp
          omega
        · have h4 := h2 h3
          have hpos : 0 < bitLenAux f (n / 2) := by
            by_contra hc
            have hz : bitLenAux f (n / 2) = 0 := by omega
            rw [hz] at h1
            simp at h1
            exact h3 h1
          have e : bitLenAux f (n / 2) = (bitLenAux f (n / 2) - 1) + 1 := by omega
          rw [e, pow_succ]
          omega

theorem BitLen_lt (n : Nat) : n < 2 ^ BitLen n :=
  (bitLenAux_spec n n (le_refl n)).1

theorem BitLen_le (n : Nat) (h : n ≠ 0) : 2 ^ (BitLen n - 1) ≤ n :=
  (bitLenAux_spec n n (le_refl n)).2 h

theorem BitLen_pos (n : Nat) (h : n ≠ 0) : 0 < BitLen n := by
  by_contra hc
  have hz : BitLen n = 0 := by omega
  have := BitLen_lt n
  rw [hz] at this
  simp at this
  exact h this

/-- The scaled denominator of `roundNE` is at most the scaled numerator
divided by `2^(p-1)`: the quotient has at least `p` bits. -/
theorem roundNE_scale_lower (p n d : Nat) (hp : 0 < p) (hn : n ≠ 0) :
    2 ^ (p - 1) * (d * 2 ^ (BitLen n - (p + BitLen d))) ≤
      n * 2 ^ ((p + BitLen d) - BitLen n) := by
  have h1 := BitLen_le n hn
  have h2 := BitLen_lt d
  have hbn := BitLen_pos n hn
  have e : (p - 1) + BitLen d + (BitLen n - (p + BitLen d))
      = (BitLen n - 1) + ((p + BitLen d) - BitLen n) := by omega
  calc 2 ^ (p - 1) * (d * 2 ^ (BitLen n - (p + BitLen d)))
      ≤ 2 ^ (p - 1) * (2 ^ BitLen d * 2 ^ (BitLen n - (p + BitLen d))) := by
        apply Nat.mul_le_mul_left
        apply Nat.mul_le_mul_right
        exact le_of_lt h2
    _ = 2 ^ ((p - 1) + BitLen d + (BitLen n - (p + BitLen d))) := by
        rw [pow_add, pow_add, mul_assoc]
    _ = 2 ^ (BitLen n - 1) * 2 ^ ((p + BitLen d) - BitLen n) := by
        rw [e, pow_add]
    _ ≤ n * 2 ^ ((p + BitLen d) - BitLen n) := Nat.mul_le_mul_right _ h1

/-- Rounding is exact on a value that is a `p`-bit mantissa times a power of
two: if `n / d = M * 2^b / 2^a` with `M < 2^p`, the rounded fraction equals
`n / d`. -/
theorem roundNE_exact (p n d M a b : Nat) (hp : 0 < p) (hd : d ≠ 0) (hM : M < 2 ^ p)
    (h : n * 2 ^ a = M * 2 ^ b * d) :
    (roundNE p n d).1 * d = n * (roundNE p n d).2 ∧ (roundNE p n d).2 ≠ 0 := by
  by_cases hn : n = 0
  · simp [roundNE, hn]
  · unfold roundNE
    rw [if_neg hn]
    dsimp only
    generalize hup : (p + BitLen d) - BitLen n = up
    generalize hdn : BitLen n - (p + BitLen d) = dn
    have hLB0 := roundNE_scale_lower p n d hp hn
    rw [hup, hdn] at hLB0
    generalize hex : (if 2 ^ p * (d * 2 ^ dn) ≤ n * 2 ^ up then 1 else 0) = extra
    have hLB : 2 ^ (p - 1) * (d * 2 ^ dn * 2 ^ extra) ≤ n * 2 ^ up := by
      by_cases hc : 2 ^ p * (d * 2 ^ dn) ≤ n * 2 ^ up
      · rw [if_pos hc] at hex
        subst hex
        have e : 2 ^ p = 2 ^ (p - 1) * 2 := by
          rw [← pow_succ]
          congr 1
          omega
        calc 2 ^ (p - 1) * (d * 2 ^ dn * 2 ^ 1) = 2 ^ p * (d * 2 ^ dn) := by
              rw [e]
              ring
          _ ≤ n * 2 ^ up := hc
      · rw [if_neg hc] at hex
        subst hex
        simpa using hLB0
    -- exponent comparison: the scaled value is an integer
    have hdpos : 0 < d := Nat.pos_of_ne_zero hd
    have hkey : 2 ^ (p - 1 + (dn + extra) + a) < 2 ^ (p + (b + up)) := by
      have h1 : 2 ^ (p - 1) * (d * 2 ^ dn * 2 ^ extra) * 2 ^ a ≤ n * 2 ^ up * 2 ^ a :=
        Nat.mul_le_mul_right _ hLB
      have h2 : n * 2 ^ up * 2 ^ a = M * 2 ^ (b + up) * d := by
        calc n * 2 ^ up * 2 ^ a = (n * 2 ^ a) * 2 ^ up := by ring
          _ = M * 2 ^ b * d * 2 ^ up := by rw [h]
          _ = M * 2 ^ (b + up) * d := by
              rw [pow_add]
              ring
      have h3 : 2 ^ (p - 1) * (d * 2 ^ dn * 2 ^ extra) * 2 ^ a
          = 2 ^ (p - 1 + (dn + extra) + a) * d := by
        rw [pow_add, pow_add, pow_add]
        ring
      rw [h2, h3] at h1
      have h4 : 2 ^ (p - 1 + (dn + extra) + a) ≤ M * 2 ^ (b + up) :=
        Nat.le_of_mul_le_mul_right h1 hdpos
      calc 2 ^ (p - 1 + (dn + extra) + a) ≤ M * 2 ^ (b + up) := h4
        _ < 2 ^ p * 2 ^ (b + up) :=
            Nat.mul_lt_mul_of_pos_right hM (Nat.two_pow_pos _)
        _ = 2 ^ (p + (b + up)) := by rw [← pow_add]
    have hexp : dn + extra + a ≤ b + up := by
      have := (Nat.pow_lt_pow_iff_right (by decide : 1 < 2)).1 hkey
      omega
    obtain ⟨c, hc⟩ : ∃ c, b + up = dn + extra + a + c := ⟨b + up - (dn + extra + a), by omega⟩
    have hN : n * 2 ^ up = (M * 2 ^ c) * (d * 2 ^ dn * 2 ^ extra) := by
      have h5 : n * 2 ^ up * 2 ^ a = (M * 2 ^ c) * (d * 2 ^ dn * 2 ^ extra) * 2 ^ a := by
        calc n * 2 ^ up * 2 ^ a = (n * 2 ^ a) * 2 ^ up := by ring
          _ = M * 2 ^ b * d * 2 ^ up := by rw [h]
          _ = M * d * 2 ^ (b + up) := by
              rw [pow_add]
              ring
          _ = (M * 2 ^ c) * (d * 2 ^ dn * 2 ^ extra) * 2 ^ a := by
              rw [hc, pow_add, pow_add, pow_add]
              ring
      exact Nat.eq_of_mul_eq_mul_right (Nat.two_pow_pos _) h5
    have hDpos : 0 < d * 2 ^ dn * 2 ^ extra :=
      Nat.mul_pos (Nat.mul_pos hdpos (Nat.two_pow_pos _)) (Nat.two_pow_pos _)
    have hq : n * 2 ^ up / (d * 2 ^ dn * 2 ^ extra) = M * 2 ^ c := by
      rw [hN]
      exact Nat.mul_div_cancel _ hDpos
    have hr : n * 2 ^ up % (d * 2 ^ dn * 2 ^ extra) = 0 := by
      rw [hN]
      exact Nat.mul_mod_left _ _
    simp only [hq, hr, Nat.mul_zero]
    rw [if_neg (by omega)]
    refine ⟨?_, ne_of_gt (Nat.two_pow_pos _)⟩
    calc M * 2 ^ c * 2 ^ (dn + extra) * d = (M * 2 ^ c) * (d * 2 ^ dn * 2 ^ extra) := by
          rw [pow_add]
          ring
      _ = n * 2 ^ up := hN.symm

/-- Before the last adjustment the scaled quotient of `roundNE` has at most
`p + 1` bits. -/
theorem roundNE_scale_upper (p n d : Nat) (hd : d ≠ 0) :
    n * 2 ^ ((p + BitLen d) - BitLen n) <
      2 ^ (p + 1) * (d * 2 ^ (BitLen n - (p + BitLen d))) := by
  have h1 := BitLen_lt n
  have h2 := BitLen_le d hd
  have hbd := BitLen_pos d hd
  have e : BitLen n + ((p + BitLen d) - BitLen n)
      = (p + 1) + (BitLen d - 1) + (BitLen n - (p + BitLen d)) := by omega
  calc n * 2 ^ ((p + BitLen d) - BitLen n)
      < 2 ^ BitLen n * 2 ^ ((p + BitLen d) - BitLen n) :=
        Nat.mul_lt_mul_of_pos_right h1 (Nat.two_pow_pos _)
    _ = 2 ^ (p + 1) * (2 ^ (BitLen d - 1) * 2 ^ (BitLen n - (p + BitLen d))) := by
        rw [← pow_add, e, pow_add, pow_add, mul_assoc]
    _ ≤ 2 ^ (p + 1) * (d * 2 ^ (BitLen n - (p + BitLen d))) := by
        apply Nat.mul_le_mul_left
        exact Nat.mul_le_mul_right _ h2

/-- The result of `roundNE` is a mantissa `m` of `p` bits (or `2^p` after a
carry) times a power of two, within half a unit in the last place of the
exact value `n / d`. -/
theorem roundNE_nearest (p n d : Nat) (hp : 0 < p) (hn : n ≠ 0) (hd : d ≠ 0) :
    ∃ m s : Nat, (roundNE p n d).1 = m * 2 ^ s ∧ 2 ^ (p - 1) ≤ m ∧ m ≤ 2 ^ p ∧
      2 * ((roundNE p n d).1 * d) ≤ 2 * (n * (roundNE p n d).2) + d * 2 ^ s ∧
      2 * (n * (roundNE p n d).2) ≤ 2 * ((roundNE p n d).1 * d) + d * 2 ^ s := by
  unfold roundNE
  rw [if_neg hn]
  dsimp only
  have hLB0 := roundNE_scale_lower p n d hp hn
  have hUB0 := roundNE_scale_upper p n d hd
  generalize (p + BitLen d) - BitLen n = up at hLB0 hUB0 ⊢
  generalize BitLen n - (p + BitLen d) = dn at hLB0 hUB0 ⊢
  generalize hex : (if 2 ^ p * (d * 2 ^ dn) ≤ n * 2 ^ up then 1 else 0) = extra
  have e2 : 2 ^ p = 2 ^ (p - 1) * 2 := by
    rw [← pow_succ]
    congr 1
    omega
  have hbounds : 2 ^ (p - 1) * (d * 2 ^ dn * 2 ^ extra) ≤ n * 2 ^ up ∧
      n * 2 ^ up < 2 ^ p * (d * 2 ^ dn * 2 ^ extra) := by
    by_cases hc : 2 ^ p * (d * 2 ^ dn) ≤ n * 2 ^ up
    · rw [if_pos hc] at hex
      subst hex
      constructor
      · calc 2 ^ (p - 1) * (d * 2 ^ dn * 2 ^ 1) = 2 ^ p * (d * 2 ^ dn) := by
              rw [e2]
              ring
          _ ≤ n * 2 ^ up := hc
      · calc n * 2 ^ up < 2 ^ (p + 1) * (d * 2 ^ dn) := hUB0
          _ = 2 ^ p * (d * 2 ^ dn * 2 ^ 1) := by
              rw [pow_succ]
              ring
    · rw [if_neg hc] at hex
      subst hex
      constructor
      · simpa using hLB0
      · simpa using Nat.lt_of_not_le hc
  have hDpos : 0 < d * 2 ^ dn * 2 ^ extra :=
    Nat.mul_pos (Nat.mul_pos (Nat.pos_of_ne_zero hd) (Nat.two_pow_pos _)) (Nat.two_pow_pos _)
  generalize hD : d * 2 ^ dn * 2 ^ extra = D at hbounds hDpos ⊢
  generalize hNg : n * 2 ^ up = N at hbounds ⊢
  have hqlo : 2 ^ (p - 1) ≤ N / D := (Nat.le_div_iff_mul_le hDpos).2 hbounds.1
  have hqhi : N / D < 2 ^ p := (Nat.div_lt_iff_lt_mul hDpos).2 hbounds.2
  have hdm := Nat.div_add_mod N D
  have hr := Nat.mod_lt N hDpos
  have hDs : d * 2 ^ (dn + extra) = D := by
    rw [← hD, pow_add, mul_assoc]
  generalize N / D = q at hqlo hqhi hdm ⊢
  generalize N % D = r at hdm hr ⊢
  by_cases hup : D < 2 * r ∨ (D = 2 * r ∧ q % 2 = 1)
  · rw [if_pos hup]
    refine ⟨q + 1, dn + extra, rfl, by omega, by omega, ?_, ?_⟩
    · have e : (q + 1) * 2 ^ (dn + extra) * d = D * q + D := by
        rw [← hDs]
        ring
      rw [e]
      rw [hDs]
      have hr2 : D ≤ 2 * r := by
        rcases hup with h | ⟨h, _⟩ <;> omega
      omega
    · have e : (q + 1) * 2 ^ (dn + extra) * d = D * q + D := by
        rw [← hDs]
        ring
      rw [e, hDs]
      omega
  · rw [if_neg hup]
    refine ⟨q, dn + extra, rfl, hqlo, le_of_lt hqhi, ?_, ?_⟩
    · have e : q * 2 ^ (dn + extra) * d = D * q := by
        rw [← hDs]
        ring
      rw [e, hDs]
      omega
    · have e : q * 2 ^ (dn + extra) * d = D * q := by
        rw [← hDs]
        ring
      rw [e, hDs]
      have hr2 : 2 * r ≤ D := by
        by_contra hc
        exact hup (Or.inl (by omega))
      omega

theorem div_eq_of_cross_eq (a b c d : Nat) (hb : b ≠ 0) (hd : d ≠ 0) (h : a * d = c * b) :
    a / b = c / d := by
  calc a / b = (a * d) / (b * d) := by
        rw [Nat.mul_div_mul_right _ _ (Nat.pos_of_ne_zero hd)]
    _ = (c * b) / (d * b) := by rw [h, Nat.mul_comm b d]
    _ = c / d := by rw [Nat.mul_div_mul_right _ _ (Nat.pos_of_ne_zero hb)]

set_option maxRecDepth 100000 in
theorem pow5_exact : ∀ k < 56, (pow5 k).num = 5 ^ k * (pow5 k).den ∧ (pow5 k).den ≠ 0 := by
  decide

theorem SetStringDigits_exact (mant fcount M a b : Nat) (hk : fcount < 56)
    (hM : M < 2 ^ 64) (h : mant * 2 ^ a = M * 2 ^ b * 10 ^ fcount) :
    (SetStringDigits mant fcount).num * 10 ^ fcount = mant * (SetStringDigits mant fcount).den
      ∧ (SetStringDigits mant fcount).den ≠ 0 ∧ (SetStringDigits mant fcount).prec = 64 := by
  unfold SetStringDigits
  by_cases h0 : mant = 0
  · simp [h0]
  · rw [if_neg h0]
    by_cases hf : fcount = 0
    · rw [if_pos hf]
      subst hf
      have := roundNE_exact 64 mant 1 M a b (by decide) (by decide) hM (by simpa using h)
      simp only [BigFloat.round, pow_zero, Nat.mul_one]
      exact ⟨by simpa using this.1, this.2, trivial⟩
    · rw [if_neg hf]
      obtain ⟨hp, hpd⟩ := pow5_exact fcount hk
      have hd : 2 ^ fcount * (pow5 fcount).num ≠ 0 := by
        rw [hp]
        positivity
      have e10 : (10 : Nat) ^ fcount = 2 ^ fcount * 5 ^ fcount := by
        rw [← Nat.mul_pow]
      have hrep : mant * (pow5 fcount).den * 2 ^ a
          = M * 2 ^ b * (2 ^ fcount * (pow5 fcount).num) := by
        rw [hp]
        calc mant * (pow5 fcount).den * 2 ^ a = (mant * 2 ^ a) * (pow5 fcount).den := by ring
          _ = M * 2 ^ b * 10 ^ fcount * (pow5 fcount).den := by rw [h]
          _ = M * 2 ^ b * (2 ^ fcount * (5 ^ fcount * (pow5 fcount).den)) := by
              rw [e10]
              ring
      have := roundNE_exact 64 _ _ M a b (by decide) hd hM hrep
      simp only [BigFloat.round]
      refine ⟨?_, this.2, trivial⟩
      have h1 := this.1
      rw [hp] at h1
      have hpos : 0 < (pow5 fcount).den := Nat.pos_of_ne_zero hpd
      apply Nat.eq_of_mul_eq_mul_right hpos
      rw [hp]
      calc _ = (roundNE 64 (mant * (pow5 fcount).den)
                (2 ^ fcount * (5 ^ fcount * (pow5 fcount).den))).1
              * (2 ^ fcount * (5 ^ fcount * (pow5 fcount).den)) := by
            rw [e10]
            ring
        _ = mant * (pow5 fcount).den * (roundNE 64 (mant * (pow5 fcount).den)
                (2 ^ fcount * (5 ^ fcount * (pow5 fcount).den))).2 := h1
        _ = _ := by ring

theorem input_amount_raw_of_exact (x : BigFloat) (n d decimals M a b : Nat)
    (hxd : x.den ≠ 0) (hd : d ≠ 0) (hx : x.num * d = n * x.den)
    (hM : M < 2 ^ (max x.prec (max (BitLen (10 ^ decimals)) 64)))
    (h : n * 10 ^ decimals * 2 ^ a = M * 2 ^ b * d) :
    input_amount_raw x decimals = n * 10 ^ decimals / d := by
  unfold input_amount_raw Mul MulPrec BigFloat.Int BigFloat.round SetInt
  simp only [Nat.mul_one]
  have hrep : x.num * 10 ^ decimals * 2 ^ a = M * 2 ^ b * x.den := by
    apply Nat.eq_of_mul_eq_mul_right (Nat.pos_of_ne_zero hd)
    calc x.num * 10 ^ decimals * 2 ^ a * d = (x.num * d) * (10 ^ decimals * 2 ^ a) := by ring
      _ = n * x.den * (10 ^ decimals * 2 ^ a) := by rw [hx]
      _ = (n * 10 ^ decimals * 2 ^ a) * x.den := by ring
      _ = M * 2 ^ b * d * x.den := by rw [h]
      _ = M * 2 ^ b * x.den * d := by ring
  have hpos : 0 < max x.prec (max (BitLen (10 ^ decimals)) 64) := by
    have : 64 ≤ max x.prec (max (BitLen (10 ^ decimals)) 64) :=
      le_trans (le_max_right _ _) (le_max_right _ _)
    omega
  obtain ⟨h1, h2⟩ := roundNE_exact _ (x.num * 10 ^ decimals) x.den M a b hpos hxd hM hrep
  apply div_eq_of_cross_eq _ _ _ _ h2 hd
  apply Nat.eq_of_mul_eq_mul_right (Nat.pos_of_ne_zero hxd)
  generalize (roundNE (max x.prec (max (BitLen (10 ^ decimals)) 64))
    (x.num * 10 ^ decimals) x.den) = r at h1 h2 ⊢
  calc r.1 * d * x.den = (r.1 * x.den) * d := by ring
    _ = x.num * 10 ^ decimals * r.2 * d := by rw [h1]
    _ = (x.num * d) * (10 ^ decimals * r.2) := by ring
    _ = n * x.den * (10 ^ decimals * r.2) := by rw [hx]
    _ = n * 10 ^ decimals * r.2 * x.den := by ring

theorem floor_decimalValue (mant fcount decimals : Nat) :
    ⌊decimalValue mant fcount * (10 : ℚ) ^ decimals⌋₊ = mant * 10 ^ decimals / 10 ^ fcount := by
  have e : decimalValue mant fcount * (10 : ℚ) ^ decimals
      = ((mant * 10 ^ decimals : ℕ) : ℚ) / ((10 ^ fcount : ℕ) : ℚ) := by
    unfold decimalValue
    push_cast
    ring
  rw [e, Nat.floor_div_eq_div]

theorem getAmountInput_plain (otherForms : List Char → Option SignedFloat)
    (token : List Char) (later : List (Option (List Char))) (amount_default : List Char)
    (mant fcount : Nat) (hlen : token.length < 2 ^ 28)
    (hscan : scanDecimal token 0 false 0 0 = some (mant, fcount)) :
    getAmountInput otherForms (some token :: later) amount_default
      = some (SignedFloat.finite false (SetStringDigits mant fcount)) := by
  simp only [getAmountInput, SetString, if_pos hlen, hscan]

set_option maxRecDepth 4000 in
/-- On a `Scanln` error the default text `1` is parsed: the amount is the
float of value 1 and the raw amount with 18 decimals is `10^18`. -/
theorem getAmountInput_default (otherForms : List Char → Option SignedFloat)
    (later : List (Option (List Char))) :
    getAmountInput otherForms (none :: later) default_input_amount
        = some (SignedFloat.finite false (SetStringDigits 1 0))
      ∧ (SetStringDigits 1 0).num = (SetStringDigits 1 0).den
      ∧ input_amount_raw_main (SignedFloat.finite false (SetStringDigits 1 0)) 18
        = 1000000000000000000 := by
  have hscan : scanDecimal default_input_amount 0 false 0 0 = some (1, 0) := by decide
  have hlen : default_input_amount.length < 2 ^ 28 := by decide
  refine ⟨?_, by decide, by decide⟩
  simp only [getAmountInput, SetString, if_pos hlen, hscan]

set_option maxRecDepth 4000 in
/-- C2: on the entered text `2.1` with 18 decimals `getAmountInput` and
`main` produce the raw amount 2099999999999999999 while
`floor(2.1 * 10^18) = 2100000000000000000`; on `0.13` with 6 decimals 129999
instead of 130000; on `16.2` with 18 decimals 16200000000000000001 instead of
16200000000000000000. On `1.9999999` with 6 decimals the result is 1999999. -/
theorem input_amount_raw_main_off_by_one (otherForms : List Char → Option SignedFloat) :
    ((getAmountInput otherForms [some "2.1".toList] default_input_amount).map
          (fun a => input_amount_raw_main a 18) = some 2099999999999999999
        ∧ ⌊decimalValue 21 1 * (10 : ℚ) ^ 18⌋₊ = 2100000000000000000)
      ∧ ((getAmountInput otherForms [some "0.13".toList] default_input_amount).map
          (fun a => input_amount_raw_main a 6) = some 129999
        ∧ ⌊decimalValue 13 2 * (10 : ℚ) ^ 6⌋₊ = 130000)
      ∧ ((getAmountInput otherForms [some "16.2".toList] default_input_amount).map
          (fun a => input_amount_raw_main a 18) = some 16200000000000000001
        ∧ ⌊decimalValue 162 1 * (10 : ℚ) ^ 18⌋₊ = 16200000000000000000)
      ∧ ((getAmountInput otherForms [some "1.9999999".toList] default_input_amount).map
          (fun a => input_amount_raw_main a 6) = some 1999999
        ∧ ⌊decimalValue 19999999 7 * (10 : ℚ) ^ 6⌋₊ = 1999999) := by
  rw [getAmountInput_plain otherForms "2.1".toList [] _ 21 1 (by decide) (by decide),
    getAmountInput_plain otherForms "0.13".toList [] _ 13 2 (by decide) (by decide),
    getAmountInput_plain otherForms "16.2".toList [] _ 162 1 (by decide) (by decide),
    getAmountInput_plain otherForms "1.9999999".toList [] _ 19999999 7 (by decide) (by decide)]
  simp only [floor_decimalValue, Option.map_some']
  refine ⟨⟨by decide, by norm_num⟩, ⟨by decide, by norm_num⟩, ⟨by decide, by norm_num⟩,
    ⟨by decide, by norm_num⟩⟩

/-- C7 (as stated) fails: the raw amount 53 with 2 decimals becomes the
readable float nearest to 0.53 and comes back as 52. -/
theorem readable_roundtrip_counterexample :
    input_amount_raw (readable_output 53 2) 2 = 52 := by
  decide

/-- C7 (amended): for a raw amount `R` and decimals `D ≤ 255` such that
`R / 10^D` is exactly a mantissa of `max(64, BitLen R, BitLen(10^D))` bits
times a power of two (as when `10^D` divides `R`), converting `R` to a
readable amount and back the way `main` does yields exactly `R`. -/
theorem readable_roundtrip_exact (R D M a b : Nat) (_hD : D ≤ 255)
    (hM : M < 2 ^ (max (max (BitLen R) 64) (max (BitLen (10 ^ D)) 64)))
    (h : R * 2 ^ a = M * 2 ^ b * 10 ^ D) :
    input_amount_raw (readable_output R D) D = R := by
  have hP : 0 < max (max (BitLen R) 64) (max (BitLen (10 ^ D)) 64) := by
    have : 64 ≤ max (max (BitLen R) 64) (max (BitLen (10 ^ D)) 64) :=
      le_trans (le_max_right _ _) (le_max_left _ _)
    omega
  have h10 : (10 : Nat) ^ D ≠ 0 := by positivity
  obtain ⟨hq, hqd⟩ := roundNE_exact _ R (10 ^ D) M a b hP h10 hM h
  have hR : R < 2 ^ (max (max (BitLen R) 64) (max (BitLen (10 ^ D)) 64)) :=
    lt_of_lt_of_le (BitLen_lt R)
      (Nat.pow_le_pow_right (by decide) (le_trans (le_max_left _ _) (le_max_left _ _)))
  have key := input_amount_raw_of_exact (readable_output R D) R (10 ^ D) D R 0 0
    (by simpa [readable_output, Quo, BigFloat.round, SetInt] using hqd) h10
    (by simpa [readable_output, Quo, BigFloat.round, SetInt] using hq)
    (by
      have e : (readable_output R D).prec
          = max (max (BitLen R) 64) (max (BitLen (10 ^ D)) 64) := rfl
      rw [e]
      exact lt_of_lt_of_le hR (Nat.pow_le_pow_right (by decide) (le_max_left _ _)))
    (by ring)
  rw [key]
  exact Nat.mul_div_cancel _ (Nat.pos_of_ne_zero h10)

theorem readable_roundtrip_exact_witness :
    input_amount_raw (readable_output 1500000 6) 6 = 1500000 :=
  readable_roundtrip_exact 1500000 6 3 1 0 (by decide) (by decide) (by decide)

end Uinv2
